import Mathlib

/-!
Shallow embedding of the RSA demo (`src/rsa.c`) over `Nat` (GMP `mpz_t`
values are arbitrary-precision integers; every value handled by this
program is nonnegative).  Randomness is modelled by an oracle
`o : Nat → Nat` supplying raw entropy: the i-th call of the GMP primitive
`mpz_urandomm(·, bound)` (uniform in `[0, bound)`) is embedded as
`o i % bound`.  Unbounded `while (1)` loops are embedded with explicit
fuel; exhausting the fuel models non-termination.  C functions returning
`0` on success and a negative errno are embedded in `CRes`.
-/

namespace RSADemo

/-- Result of a C routine: success value, negative errno (`-22` = `-EINVAL`,
`-14` = `-EFAULT`), or divergence (a `while (1)` loop that never exits,
modelled as running out of fuel). -/
inductive CRes (α : Type) where
  | ok : α → CRes α
  | err : Int → CRes α
  | diverge : CRes α
deriving DecidableEq

/-- Fuel-driven core of the Jacobi symbol (binary algorithm), modelling the
external collaborator `mpz_jacobi` from GMP (spec §2 BignumOps: "Jacobi
symbol").  Arguments: fuel, numerator `a`, odd positive denominator `b`,
accumulated sign `s`. -/
def jacobiF : Nat → Nat → Nat → Int → Int
  | 0, _, _, _ => 0
  | fuel + 1, a, b, s =>
    if a = 0 then (if b = 1 then s else 0)
    else if a % 2 = 0 then
      jacobiF fuel (a / 2) b (if b % 8 = 3 ∨ b % 8 = 5 then -s else s)
    else
      jacobiF fuel (b % a) a (if a % 4 = 3 ∧ b % 4 = 3 then -s else s)

/-- Jacobi symbol `(a / b)` for odd positive `b`; models `mpz_jacobi`.
The fuel `a + b + 1` dominates the algorithm's iteration count, because
the first argument strictly decreases on every step. -/
def jacobi (a b : Nat) : Int := jacobiF (a + b + 1) (a % b) b 1

/-- Trial loop of `primality_test` (src/rsa.c:602-628), one step per
`while (k-- > 0)` iteration.  Arguments: candidate `n`, random oracle `o`,
next oracle index `i`, remaining rounds `k`, and the C temporary `t`.

Mirrors the source exactly:
* `__mpz_urandomm(a, t); mpz_add_ui(a, a, 2)` is `a := o i % t + 2`
  (the C comment claims `a ∈ [2, n-1]`, which holds only while `t = n-2`);
* `mpz_set_ui(x, (uint64_t)mpz_jacobi(a, n))` casts the `int` Jacobi value
  through `uint64_t`, so `-1` becomes `2^64 - 1`;
* the subsequent `if (!mpz_cmp_si(x, -1))` compares the (nonnegative)
  `x` with `-1` and is therefore never taken;
* when `x ≠ 0` the source overwrites `t` with `(n-1)/2` and `a` with
  `a^((n-1)/2) mod n`, returning 1 on `a = x`; the overwritten `t` is the
  `urandomm` bound of the next iteration. -/
def ptLoop (n : Nat) (o : Nat → Nat) : Nat → Nat → Nat → Bool × Nat
  | i, 0, _ => (false, i)
  | i, k + 1, t =>
    let a := o i % t + 2
    let x0 : Nat := ((jacobi a n) % (2 ^ 64 : Int)).toNat
    let x : Nat := if (x0 : Int) = -1 then n - 1 else x0
    if x ≠ 0 then
      let t2 := (n - 1) / 2
      let a2 := a ^ t2 % n
      if a2 = x then (true, i + 1)
      else ptLoop n o (i + 1) k t2
    else ptLoop n o (i + 1) k t

/-- `primality_test` (src/rsa.c:582-633) with an explicit starting oracle
index, returning the verdict and the next unused oracle index, so that it
composes inside `generate_n_p_q`.  The source checks `n == 1`, `n == 2`,
then `n mod 2 == 0` (GMP `mpz_mod_ui` is nonnegative), then runs the
trial loop with the temporary `t` initialised to `n - 2`. -/
def primality_testIdx (n k : Nat) (o : Nat → Nat) (i : Nat) : Bool × Nat :=
  if n = 1 then (false, i)
  else if n = 2 then (true, i)
  else if n % 2 = 0 then (false, i)
  else ptLoop n o i k (n - 2)

/-- `primality_test` (src/rsa.c:582-633): Solovay-Strassen test of
candidate `n` with `k` rounds; `true` embeds the C return value 1
("probably prime"), `false` embeds 0 ("composite"). -/
def primality_test (n k : Nat) (o : Nat → Nat) : Bool :=
  (primality_testIdx n k o 0).1

/-- Instrumented copy of `ptLoop` recording, in order, the bound passed to
`__mpz_urandomm` at each executed trial (the value of the C variable `t`
at the top of each `while (k-- > 0)` iteration). -/
def ptLoopBounds (n : Nat) (o : Nat → Nat) : Nat → Nat → Nat → List Nat
  | _, 0, _ => []
  | i, k + 1, t =>
    let a := o i % t + 2
    let x0 : Nat := ((jacobi a n) % (2 ^ 64 : Int)).toNat
    let x : Nat := if (x0 : Int) = -1 then n - 1 else x0
    if x ≠ 0 then
      let t2 := (n - 1) / 2
      let a2 := a ^ t2 % n
      if a2 = x then [t]
      else t :: ptLoopBounds n o (i + 1) k t2
    else t :: ptLoopBounds n o (i + 1) k t

/-- The list of `__mpz_urandomm` bounds used by a run of `primality_test`
on candidate `n` with `k` rounds (empty when the trial loop is not
reached). -/
def primality_test_bounds (n k : Nat) (o : Nat → Nat) : List Nat :=
  if n = 1 ∨ n = 2 ∨ n % 2 = 0 then [] else ptLoopBounds n o 0 k (n - 2)

/-- Modelled from the spec: `PRIMALITY_TEST_ACCURACY`, the accuracy policy
constant passed by `generate_n_p_q` to `primality_test`.  It is defined in
`gmp_helper.h`, which is not under `src/`; the spec (§4.1, §8) only
requires rounds ≥ 5, so we fix the value 5.  No theorem below depends on
the exact value. -/
def PRIMALITY_TEST_ACCURACY : Nat := 5

/-- Fuel-driven bit length (position of the highest set bit plus one,
with `binlenAux _ 0 = 0`); any fuel ≥ the argument gives the true value. -/
def binlenAux : Nat → Nat → Nat
  | 0, _ => 0
  | fuel + 1, n => if n = 0 then 0 else binlenAux fuel (n / 2) + 1

/-- Binary length of `n` (0 for 0). -/
def binlen (n : Nat) : Nat := binlenAux n n

/-- Modelled from the spec: `mpz_check_binlen(n, len)` from `gmp_helper.h`
(not under `src/`).  Per spec §4.2 the generation loop retries exactly when
"the product's bit length ≠ bitLength", and the call sites treat 0 as
"length matches" (`if (mpz_check_binlen(n, len_n)) continue;`). -/
def mpz_check_binlen (n len : Nat) : Nat :=
  if binlen n = len then 0 else 1

/-- Modelled from the spec: `mpz_rand_bitlen(·, len)` from `gmp_helper.h`
(not under `src/`).  Per spec §6 the random collaborator yields a value of
"exactly N bits with top bit set", i.e. uniform in `[2^(len-1), 2^len)`;
`r` is the raw entropy from the oracle. -/
def mpz_rand_bitlen (r len : Nat) : Nat :=
  2 ^ (len - 1) + r % 2 ^ (len - 1)

/-- Inner `while (1)` rejection loop of `generate_n_p_q`
(src/rsa.c:660-668 for `p`, 670-678 for `q`): redraw a `halfLen`-bit
candidate until `primality_test` does not return `NUM_COMPOSITE` (= 0,
embedded as `false`).  Returns the accepted candidate together with the
next oracle index; fuel exhaustion models non-termination. -/
def innerPrimeLoop : Nat → (Nat → Nat) → Nat → Nat → CRes (Nat × Nat)
  | 0, _, _, _ => CRes.diverge
  | fuel + 1, o, halfLen, i =>
    let c := mpz_rand_bitlen (o i) halfLen
    let r := primality_testIdx c PRIMALITY_TEST_ACCURACY o (i + 1)
    if r.1 = false then innerPrimeLoop fuel o halfLen r.2
    else CRes.ok (c, r.2)

/-- Outer `while (1)` loop of `generate_n_p_q` (src/rsa.c:652-683): draw a
shape-check pair `p0, q0` of `len/2` bits each and retry if `p0 * q0` has
the wrong bit length; then redraw `p` and `q` through the prime rejection
loops; recompute `n = p * q` and accept exactly when the bit length
matches, otherwise restart. -/
def genLoop : Nat → (Nat → Nat) → Nat → Nat → CRes (Nat × Nat × Nat)
  | 0, _, _, _ => CRes.diverge
  | fuel + 1, o, len, i =>
    let p0 := mpz_rand_bitlen (o i) (len / 2)
    let q0 := mpz_rand_bitlen (o (i + 1)) (len / 2)
    if mpz_check_binlen (p0 * q0) len ≠ 0 then genLoop fuel o len (i + 2)
    else
      match innerPrimeLoop fuel o (len / 2) (i + 2) with
      | CRes.ok pr =>
        (match innerPrimeLoop fuel o (len / 2) pr.2 with
         | CRes.ok qr =>
           if mpz_check_binlen (pr.1 * qr.1) len = 0 then
             CRes.ok (pr.1 * qr.1, pr.1, qr.1)
           else genLoop fuel o len qr.2
         | CRes.err c => CRes.err c
         | CRes.diverge => CRes.diverge)
      | CRes.err c => CRes.err c
      | CRes.diverge => CRes.diverge

/-- `generate_n_p_q` (src/rsa.c:644-686).  The null-pointer tests on
`n`, `p`, `q` are not representable (the embedding passes values, not
pointers); `!len_n` and `len_n % 2` return `-EINVAL` (-22) exactly as in
the source, before any random draw. -/
def generate_n_p_q (fuel : Nat) (o : Nat → Nat) (len_n : Nat) :
    CRes (Nat × Nat × Nat) :=
  if len_n = 0 then CRes.err (-22)
  else if len_n % 2 ≠ 0 then CRes.err (-22)
  else genLoop fuel o len_n 0

/-- `mpz_invert(d, e, phi)` from GMP (external collaborator, spec §2:
"extended-Euclid modular inverse"): when `gcd a m = 1` it yields the
inverse of `a` in `[0, m)` (which is 0 when `m = 1`), via the Bezout
coefficient `Nat.gcdA`. -/
def mpz_invert (a m : Nat) : Nat := ((Nat.gcdA a m) % (m : Int)).toNat

/-- `generate_e_d` (src/rsa.c:697-736): `phi = (p-1)(q-1)`, `e = 65537`;
return `-EFAULT` (-14) when `gcd(e, phi) ≠ 1`; otherwise
`d = mpz_invert(e, phi)`.  The source then tests `(e * d) % phi == 1` but
only prints a diagnostic on mismatch — the operation still succeeds — so
the check does not appear in the result.  The null-pointer test on
`e`, `d` is not representable. -/
def generate_e_d (p q : Nat) : CRes (Nat × Nat) :=
  let phi := (p - 1) * (q - 1)
  let e := 65537
  if Nat.gcd e phi ≠ 1 then CRes.err (-14)
  else CRes.ok (e, mpz_invert e phi)

/-- `struct rsa_key` (declared in the headers, used throughout
src/rsa.c): GMP fields `n, p, q, e, d` and `key_len`. -/
structure rsa_key where
  n : Nat
  p : Nat
  q : Nat
  e : Nat
  d : Nat
  key_len : Nat
deriving DecidableEq

/-- `struct rsa_public` (fields `n`, `d`, `key_len`). -/
structure rsa_public where
  n : Nat
  d : Nat
  key_len : Nat
deriving DecidableEq

/-- `struct rsa_private` (fields `n`, `e`, `key_len`). -/
structure rsa_private where
  n : Nat
  e : Nat
  key_len : Nat
deriving DecidableEq

/-- `generate_key` (src/rsa.c:745-763): store `key_len`, then run
`generate_n_p_q` and `generate_e_d`; ANY nonzero result from either —
including the `-EINVAL` that `generate_n_p_q` raises for a zero or odd
length — is turned into `-EFAULT` (-14) after printing a diagnostic. -/
def generate_key (fuel : Nat) (o : Nat → Nat) (len_key : Nat) :
    CRes rsa_key :=
  match generate_n_p_q fuel o len_key with
  | CRes.err _ => CRes.err (-14)
  | CRes.diverge => CRes.diverge
  | CRes.ok npq =>
    match generate_e_d npq.2.1 npq.2.2 with
    | CRes.err _ => CRes.err (-14)
    | CRes.diverge => CRes.diverge
    | CRes.ok ed =>
      CRes.ok ⟨npq.1, npq.2.1, npq.2.2, ed.1, ed.2, len_key⟩

/-- `generate_public_key` (src/rsa.c:772-782).  The argument is `none`
for a NULL `key` pointer.  The source condition is
`!key || !key->n || !key->d`; `key->n` and `key->d` are embedded `mpz_t`
array members, so `!key->n` tests the address of an array inside a
non-null struct and is always false — it never inspects the stored
values.  That dead test is kept here as `if False`.  `mpz_set` copies the
values into the fresh `rsa_public`. -/
def generate_public_key (key : Option rsa_key) : CRes rsa_public :=
  match key with
  | none => CRes.err (-22)
  | some k =>
    if False then CRes.err (-22)
    else CRes.ok ⟨k.n, k.d, k.key_len⟩

/-- `generate_private_key` (src/rsa.c:791-801); same shape as
`generate_public_key` with the `e` exponent, and the same always-false
`!key->n || !key->e` test on array addresses. -/
def generate_private_key (key : Option rsa_key) : CRes rsa_private :=
  match key with
  | none => CRes.err (-22)
  | some k =>
    if False then CRes.err (-22)
    else CRes.ok ⟨k.n, k.e, k.key_len⟩

/-- `rsa_docrypt` (src/rsa.c:811-814): `mpz_powm(out, in, e, n)`, i.e.
`in ^ e mod n`. -/
def rsa_docrypt (x e n : Nat) : Nat := x ^ e % n

/-- `rsa_encrypt_file` (src/rsa.c:826-876) at the level of token values:
each input byte is transformed by `rsa_docrypt` and written as one
hexadecimal token (`"%Zx\n"`).  The hexadecimal text serialisation is
value-faithful, so the token stream is modelled by the list of its
numeric values. -/
def rsa_encrypt_stream (bytes : List Nat) (e n : Nat) : List Nat :=
  bytes.map (fun b => rsa_docrypt b e n)

/-- `rsa_decrypt_file` (src/rsa.c:878-924) at the level of token values:
each token value is transformed by `rsa_docrypt` and the low 8 bits are
emitted (`ch = (uint8_t)mpz_get_ui(ddecry)`, and `256 ∣ 2^64`, so the
net effect is reduction mod 256). -/
def rsa_decrypt_stream (toks : List Nat) (e n : Nat) : List Nat :=
  toks.map (fun t => rsa_docrypt t e n % 256)

/-- Whitespace as skipped by `fscanf` conversions. -/
def isWs (c : Char) : Bool :=
  c = ' ' ∨ c = '\n' ∨ c = '\t' ∨ c = '\r'

/-- Hexadecimal digit test for the `%Zx` conversion. -/
def isHexDigit (c : Char) : Bool :=
  ('0' ≤ c ∧ c ≤ '9') ∨ ('a' ≤ c ∧ c ≤ 'f') ∨ ('A' ≤ c ∧ c ≤ 'F')

/-- Numeric value of a hexadecimal digit. -/
def hexVal (c : Char) : Nat :=
  if '0' ≤ c ∧ c ≤ '9' then c.toNat - '0'.toNat
  else if 'a' ≤ c ∧ c ≤ 'f' then c.toNat - 'a'.toNat + 10
  else if 'A' ≤ c ∧ c ≤ 'F' then c.toNat - 'A'.toNat + 10
  else 0

/-- Drop the leading whitespace of a character stream. -/
def skipWs : List Char → List Char
  | [] => []
  | c :: cs => if isWs c then skipWs cs else c :: cs

/-- Consume a maximal run of hexadecimal digits, accumulating the value.
Returns (value, remaining stream, end-of-file flag); the flag is set when
the run was terminated by the end of the stream (the reader tried to read
past the last character), as with the C stream EOF indicator. -/
def takeHex : List Char → Nat → Nat × List Char × Bool
  | [], acc => (acc, [], true)
  | c :: cs, acc =>
    if isHexDigit c then takeHex cs (16 * acc + hexVal c)
    else (acc, c :: cs, false)

/-- Model of `gmp_fscanf(f, "%Zx", v)` over a character stream, following
C `fscanf` semantics: skip leading whitespace; on end of input while
skipping, fail with the EOF flag set; on a non-hexadecimal first
character, fail WITHOUT consuming it and without setting the EOF flag (a
matching failure); otherwise read a maximal digit run.  Returns
(parsed value if matched, remaining stream, EOF flag after the call). -/
def scanHex (cs : List Char) : Option Nat × List Char × Bool :=
  match skipWs cs with
  | [] => (none, [], true)
  | c :: cs2 =>
    if isHexDigit c then
      let r := takeHex (c :: cs2) 0
      (some r.1, r.2.1, r.2.2)
    else (none, c :: cs2, false)

/-- The `while (!feof(fencry))` loop of `rsa_decrypt_file`
(src/rsa.c:907-915), with fuel (`none` = the loop never terminates):
call `gmp_fscanf`; `if (feof(fencry)) break;`; otherwise transform the
current value of `dencry` — which the scan leaves UNCHANGED on a matching
failure — and emit its low byte.  `cur` is `dencry` (initially 0 from
`mpz_inits`), `acc` the bytes written so far, newest first. -/
def rsa_decrypt_loop (e n : Nat) : Nat → Nat → List Char → List Nat →
    Option (List Nat)
  | 0, _, _, _ => none
  | fuel + 1, cur, cs, acc =>
    let r := scanHex cs
    if r.2.2 then some acc.reverse
    else
      let cur2 := r.1.getD cur
      rsa_decrypt_loop e n fuel cur2 r.2.1
        ((rsa_docrypt cur2 e n % 256) :: acc)

/-- `rsa_decrypt_file` (src/rsa.c:878-924) at character level: decrypt the
encrypted text `input` with exponent `e` and modulus `n`; the result is
the byte sequence written to the output file, or `none` when the loop
never terminates within the given fuel. -/
def rsa_decrypt_file (fuel e n : Nat) (input : List Char) :
    Option (List Nat) :=
  rsa_decrypt_loop e n fuel 0 input []

/-! Helper lemmas. -/

theorem binlenAux_zero (f : Nat) : binlenAux f 0 = 0 := by
  cases f <;> simp [binlenAux]

theorem binlenAux_congr : ∀ f g n : Nat, n ≤ f → n ≤ g →
    binlenAux f n = binlenAux g n := by
  intro f
  induction f with
  | zero =>
    intro g n hf _
    have hn : n = 0 := Nat.le_zero.mp hf
    subst hn
    rw [binlenAux_zero, binlenAux_zero]
  | succ f ih =>
    intro g n hf hg
    cases g with
    | zero =>
      have hn : n = 0 := Nat.le_zero.mp hg
      subst hn
      rw [binlenAux_zero, binlenAux_zero]
    | succ g =>
      by_cases hn : n = 0
      · subst hn; rw [binlenAux_zero, binlenAux_zero]
      · simp only [binlenAux, if_neg hn]
        have h2 : n / 2 ≤ f := by omega
        have h3 : n / 2 ≤ g := by omega
        rw [ih g (n / 2) h2 h3]

theorem binlen_step (n : Nat) (h : n ≠ 0) : binlen n = binlen (n / 2) + 1 := by
  obtain ⟨m, rfl⟩ : ∃ m, n = m + 1 := ⟨n - 1, by omega⟩
  show binlenAux (m + 1) (m + 1) = binlenAux ((m + 1) / 2) ((m + 1) / 2) + 1
  simp only [binlenAux, if_neg (Nat.succ_ne_zero m)]
  rw [binlenAux_congr m ((m + 1) / 2) ((m + 1) / 2) (by omega) (le_refl _)]

theorem binlen_bounds : ∀ n len : Nat, binlen n = len → 1 ≤ len →
    2 ^ (len - 1) ≤ n ∧ n < 2 ^ len := by
  intro n
  induction n using Nat.strong_induction_on with
  | _ n ih =>
    intro len hb hl
    by_cases hn : n = 0
    · subst hn
      simp [binlen, binlenAux] at hb
      omega
    · rw [binlen_step n hn] at hb
      cases len with
      | zero => omega
      | succ L =>
        have hbl : binlen (n / 2) = L := by omega
        by_cases hL : L = 0
        · subst hL
          have h0 : n / 2 = 0 := by
            by_contra hc
            rw [binlen_step _ hc] at hbl
            omega
          have hn1 : n = 1 := by omega
          subst hn1
          norm_num
        · have ihh := ih (n / 2) (by omega) L hbl (by omega)
          have hpow : 2 ^ L = 2 * 2 ^ (L - 1) := by
            conv_lhs => rw [show L = (L - 1) + 1 by omega]
            rw [pow_succ]
            ring
          have hpow2 : 2 ^ (L + 1) = 2 * 2 ^ L := by
            rw [pow_succ]
            ring
          have hdm := Nat.div_add_mod n 2
          have hm : n % 2 < 2 := Nat.mod_lt _ (by norm_num)
          constructor
          · simp only [Nat.add_sub_cancel]
            omega
          · omega

theorem check_binlen_zero {n len : Nat} (h : mpz_check_binlen n len = 0) :
    binlen n = len := by
  by_cases hc : binlen n = len
  · exact hc
  · simp [mpz_check_binlen, hc] at h

theorem genLoop_ok : ∀ (fuel : Nat) (o : Nat → Nat) (len i n p q : Nat),
    genLoop fuel o len i = CRes.ok (n, p, q) →
    n = p * q ∧ binlen n = len := by
  intro fuel
  induction fuel with
  | zero =>
    intro o len i n p q h
    simp [genLoop] at h
  | succ f ih =>
    intro o len i n p q h
    rw [genLoop] at h
    split at h
    · exact ih o len (i + 2) n p q h
    · split at h
      · split at h
        · split at h
          · rename_i pr qr hchk
            rw [CRes.ok.injEq, Prod.mk.injEq, Prod.mk.injEq] at h
            obtain ⟨h1, h2, h3⟩ := h
            subst h2; subst h3
            exact ⟨h1.symm, h1 ▸ check_binlen_zero hchk⟩
          · exact ih o len _ n p q h
        · exact absurd h (by simp)
        · exact absurd h (by simp)
      · exact absurd h (by simp)
      · exact absurd h (by simp)

theorem mpz_invert_mul (a m : Nat) (hm : 1 < m) (h : Nat.gcd a m = 1) :
    (a * mpz_invert a m) % m = 1 := by
  have hbez : (1 : Int) = a * Nat.gcdA a m + m * Nat.gcdB a m := by
    have hg := Nat.gcd_eq_gcd_ab a m
    rw [h] at hg
    exact_mod_cast hg
  have hnn : 0 ≤ Nat.gcdA a m % (m : Int) :=
    Int.emod_nonneg _ (by omega)
  have hd : ((mpz_invert a m : Nat) : Int) = Nat.gcdA a m % (m : Int) := by
    simp [mpz_invert, Int.toNat_of_nonneg hnn]
  have h1 : ((a : Int) * (Nat.gcdA a m % (m : Int))) % m =
      ((a : Int) * Nat.gcdA a m) % m := by
    conv_lhs => rw [Int.mul_emod]
    conv_rhs => rw [Int.mul_emod]
    rw [Int.emod_emod_of_dvd _ dvd_rfl]
  have h2 : ((a : Int) * Nat.gcdA a m) % m = 1 % m := by
    have hrw : (a : Int) * Nat.gcdA a m = 1 + (m : Int) * (-Nat.gcdB a m) := by
      rw [hbez]; ring
    rw [hrw, Int.add_mul_emod_self_left]
  have h3 : (1 : Int) % m = 1 :=
    Int.emod_eq_of_lt (by norm_num) (by exact_mod_cast hm)
  have key : ((a : Int) * ((mpz_invert a m : Nat) : Int)) % m = 1 := by
    rw [hd, h1, h2, h3]
  have keyn : (((a * mpz_invert a m) % m : Nat) : Int) = ((1 : Nat) : Int) := by
    push_cast
    exact key
  exact_mod_cast keyn

theorem rsa_fermat_side (p k x : Nat) (hp : Nat.Prime p) :
    x ^ ((p - 1) * k + 1) ≡ x [MOD p] := by
  by_cases hdvd : p ∣ x
  · have h1 : x ^ ((p - 1) * k + 1) ≡ 0 [MOD p] :=
      (Nat.modEq_zero_iff_dvd).2 (dvd_pow hdvd (by omega))
    have h2 : x ≡ 0 [MOD p] := (Nat.modEq_zero_iff_dvd).2 hdvd
    exact h1.trans h2.symm
  · have hco : Nat.Coprime x p := (hp.coprime_iff_not_dvd.mpr hdvd).symm
    have hf : x ^ (p - 1) ≡ 1 [MOD p] := by
      have ht := Nat.ModEq.pow_totient hco
      rwa [Nat.totient_prime hp] at ht
    calc x ^ ((p - 1) * k + 1) = (x ^ (p - 1)) ^ k * x := by
          rw [pow_add, pow_mul, pow_one]
      _ ≡ 1 ^ k * x [MOD p] := Nat.ModEq.mul_right x (hf.pow k)
      _ = x := by rw [one_pow, one_mul]

theorem rsa_core (p q e d : Nat) (hp : Nat.Prime p) (hq : Nat.Prime q)
    (hne : p ≠ q) (hed : e * d % ((p - 1) * (q - 1)) = 1) (x : Nat) :
    x ^ (e * d) ≡ x [MOD p * q] := by
  have hp2 := hp.two_le
  have hq2 := hq.two_le
  have hphi : 0 < (p - 1) * (q - 1) := Nat.mul_pos (by omega) (by omega)
  have hdm := Nat.div_add_mod (e * d) ((p - 1) * (q - 1))
  set k := e * d / ((p - 1) * (q - 1)) with hk
  have hed1 : e * d = (p - 1) * (q - 1) * k + 1 := by omega
  have modp : x ^ (e * d) ≡ x [MOD p] := by
    have hrw : e * d = (p - 1) * ((q - 1) * k) + 1 := by
      rw [hed1]; ring
    rw [hrw]
    exact rsa_fermat_side p _ x hp
  have modq : x ^ (e * d) ≡ x [MOD q] := by
    have hrw : e * d = (q - 1) * ((p - 1) * k) + 1 := by
      rw [hed1]; ring
    rw [hrw]
    exact rsa_fermat_side q _ x hq
  exact (Nat.modEq_and_modEq_iff_modEq_mul
    ((Nat.coprime_primes hp hq).2 hne)).1 ⟨modp, modq⟩

theorem rsa_docrypt_inv (p q e d x : Nat) (hp : Nat.Prime p)
    (hq : Nat.Prime q) (hne : p ≠ q)
    (hed : e * d % ((p - 1) * (q - 1)) = 1) (hx : x < p * q) :
    rsa_docrypt (rsa_docrypt x e (p * q)) d (p * q) = x := by
  unfold rsa_docrypt
  conv_lhs => rw [← Nat.pow_mod]
  rw [← pow_mul]
  have h := rsa_core p q e d hp hq hne hed x
  rw [Nat.ModEq] at h
  rw [h, Nat.mod_eq_of_lt hx]

theorem rsa_stream_inv (p q e d : Nat) (hp : Nat.Prime p) (hq : Nat.Prime q)
    (hne : p ≠ q) (hed : e * d % ((p - 1) * (q - 1)) = 1)
    (hn : 255 < p * q) :
    ∀ bs : List Nat, (∀ b ∈ bs, b < 256) →
      rsa_decrypt_stream (rsa_encrypt_stream bs e (p * q)) d (p * q) = bs := by
  intro bs
  induction bs with
  | nil => intro _; rfl
  | cons b tl ih =>
    intro hbs
    have hb : b < 256 := hbs b (List.mem_cons_self b tl)
    have hbn : b < p * q := lt_of_lt_of_le hb (by omega)
    simp only [rsa_encrypt_stream, rsa_decrypt_stream, List.map_cons]
    rw [rsa_docrypt_inv p q e d b hp hq hne hed hbn, Nat.mod_eq_of_lt hb]
    have htl := ih (fun c hc => hbs c (List.mem_cons_of_mem b hc))
    simp only [rsa_encrypt_stream, rsa_decrypt_stream] at htl
    rw [htl]

/-! Claim theorems. -/

/-- C1, counterexample to the claim as stated: the claim quantifies over
"every modulus n = p·q" whose exponents are true modular inverses mod
φ(n) = (p−1)(q−1); with p = q = 17 (a prime), n = 289 > 255 and
(e, d) = (3, 171) with e·d = 513 ≡ 1 (mod 256), yet
transformByte(transformByte(17, e, n), d, n) = 0 ≠ 17. -/
theorem claim_C1_counterexample :
    Nat.Prime 17 ∧ 255 < 17 * 17 ∧ 3 * 171 % ((17 - 1) * (17 - 1)) = 1 ∧
    ¬ rsa_docrypt (rsa_docrypt 17 3 (17 * 17)) 171 (17 * 17) = 17 :=
  ⟨by norm_num, by norm_num, by norm_num, by decide⟩

/-- C1, amended: for DISTINCT primes p ≠ q with n = p·q > 255 and
(e·d) mod (p−1)(q−1) = 1, `rsa_docrypt` (transformByte) is self-inverse on
all of [0, n) in both exponent orders, and the byte-stream round trip of
`rsa_encrypt_file`/`rsa_decrypt_file` reproduces any byte sequence
exactly, in both exponent orders. -/
theorem claim_C1 (p q e d : Nat) (hp : Nat.Prime p) (hq : Nat.Prime q)
    (hne : p ≠ q) (hn : 255 < p * q)
    (hed : e * d % ((p - 1) * (q - 1)) = 1) :
    (∀ x, x < p * q → rsa_docrypt (rsa_docrypt x e (p * q)) d (p * q) = x) ∧
    (∀ x, x < p * q → rsa_docrypt (rsa_docrypt x d (p * q)) e (p * q) = x) ∧
    (∀ bs : List Nat, (∀ b ∈ bs, b < 256) →
      rsa_decrypt_stream (rsa_encrypt_stream bs e (p * q)) d (p * q) = bs) ∧
    (∀ bs : List Nat, (∀ b ∈ bs, b < 256) →
      rsa_decrypt_stream (rsa_encrypt_stream bs d (p * q)) e (p * q) = bs) := by
  have hed2 : d * e % ((p - 1) * (q - 1)) = 1 := by rwa [mul_comm] at hed
  exact ⟨fun x hx => rsa_docrypt_inv p q e d x hp hq hne hed hx,
         fun x hx => rsa_docrypt_inv p q d e x hp hq hne hed2 hx,
         rsa_stream_inv p q e d hp hq hne hed hn,
         rsa_stream_inv p q d e hp hq hne hed2 hn⟩

/-- C1 witness: p = 13, q = 23, n = 299, e = 5, d = 53
(5·53 = 265 ≡ 1 mod 264), byte 42 and stream [0, 65, 255]. -/
theorem claim_C1_witness :
    rsa_docrypt (rsa_docrypt 42 5 (13 * 23)) 53 (13 * 23) = 42 ∧
    rsa_decrypt_stream (rsa_encrypt_stream [0, 65, 255] 5 (13 * 23)) 53
      (13 * 23) = [0, 65, 255] :=
  ⟨(claim_C1 13 23 5 53 (by norm_num) (by norm_num) (by norm_num)
      (by norm_num) (by norm_num)).1 42 (by norm_num),
   (claim_C1 13 23 5 53 (by norm_num) (by norm_num) (by norm_num)
      (by norm_num) (by norm_num)).2.2.1 [0, 65, 255] (by decide)⟩

/-- C2, counterexample to the claim as stated: with p = q = 2 (2 is
prime), φ = (p−1)(q−1) = 1, `generate_e_d` succeeds —
gcd(65537, 1) = 1 passes and `mpz_invert` yields d = 0 — yet
(e·d) mod φ = 0 ≠ 1.  (The source's own self-check prints its
"(e * d) %% phi = 1 failed!" diagnostic here but still returns 0.) -/
theorem claim_C2_counterexample :
    Nat.Prime 2 ∧ generate_e_d 2 2 = CRes.ok (65537, 0) ∧
    ¬ 65537 * 0 % ((2 - 1) * (2 - 1)) = 1 := by
  refine ⟨by norm_num, ?_, by decide⟩
  have h0 : mpz_invert 65537 1 = 0 := by
    simp [mpz_invert]
  simp [generate_e_d, h0]

/-- C2, amended: whenever `generate_e_d` succeeds on primes p, q AND
φ = (p−1)(q−1) > 1 (i.e. not p = q = 2), the produced exponents satisfy
e = 65537 and (e·d) mod φ = 1. -/
theorem claim_C2 (p q e d : Nat) (hp : Nat.Prime p) (hq : Nat.Prime q)
    (hphi : 1 < (p - 1) * (q - 1))
    (h : generate_e_d p q = CRes.ok (e, d)) :
    e = 65537 ∧ e * d % ((p - 1) * (q - 1)) = 1 := by
  simp only [generate_e_d] at h
  split at h
  · exact absurd h (by simp)
  · rename_i hgcd
    rw [CRes.ok.injEq, Prod.mk.injEq] at h
    obtain ⟨he, hd⟩ := h
    subst he; subst hd
    refine ⟨rfl, ?_⟩
    exact mpz_invert_mul 65537 ((p - 1) * (q - 1)) hphi (by omega)

/-- C2 witness: p = q = 3 (φ = 4 > 1); `generate_e_d 3 3` succeeds with
d = `mpz_invert 65537 4`, and the theorem yields the inverse identity. -/
theorem claim_C2_witness :
    65537 = 65537 ∧
    65537 * mpz_invert 65537 ((3 - 1) * (3 - 1)) %
      ((3 - 1) * (3 - 1)) = 1 :=
  claim_C2 3 3 65537 (mpz_invert 65537 ((3 - 1) * (3 - 1)))
    (by norm_num) (by norm_num) (by norm_num)
    (by norm_num [generate_e_d])

/-- C3, confirmed: every successful run of `generate_n_p_q` on an even
bitLength ≥ 16 returns n = p·q whose binary length is exactly the
requested length, i.e. 2^(len−1) ≤ n < 2^len; the rejection loop
restarts whenever the recomputed product's length differs, so no other
value can be returned. -/
theorem claim_C3 (fuel len n p q : Nat) (o : Nat → Nat)
    (h16 : 16 ≤ len) (hev : len % 2 = 0)
    (h : generate_n_p_q fuel o len = CRes.ok (n, p, q)) :
    n = p * q ∧ 2 ^ (len - 1) ≤ n ∧ n < 2 ^ len := by
  unfold generate_n_p_q at h
  rw [if_neg (by omega), if_neg (by omega)] at h
  obtain ⟨h1, h2⟩ := genLoop_ok fuel o len 0 n p q h
  exact ⟨h1, binlen_bounds n len h2 (by omega)⟩

/-- C3 witness: bitLength 16 with an oracle that yields the 8-bit prime
251 for every `mpz_rand_bitlen` draw and the witness a = 4 (a quadratic
residue, accepted on the first Solovay-Strassen trial) inside each
`primality_test`; the run returns n = 251·251 = 63001, of binary length
exactly 16. -/
theorem claim_C3_witness :
    63001 = 251 * 251 ∧ 2 ^ (16 - 1) ≤ 63001 ∧ 63001 < 2 ^ 16 :=
  claim_C3 2 16 63001 251 251
    (fun i => if i = 3 ∨ i = 5 then 2 else 123)
    (by norm_num) (by norm_num) (by decide)

/-- C4, counterexample to the claim as stated: for the odd bitLength 3,
`generate_key` fails, but with `-EFAULT` (-14) — it swallows the
`-EINVAL` (-22, InvalidArgument) that `generate_n_p_q` returned and
substitutes its own `-EFAULT` — so the entry point does NOT fail with
InvalidArgument. -/
theorem claim_C4_counterexample :
    generate_key 0 (fun _ => 0) 3 = CRes.err (-14) ∧
    (CRes.err (-14) : CRes rsa_key) ≠ CRes.err (-22) :=
  ⟨by decide, by decide⟩

/-- C4, amended: for every zero or odd bitLength, `generate_key` fails
immediately — returning `-EFAULT` after `generate_n_p_q` rejects the
length with `-EINVAL` (InvalidArgument) — and attempts no generation:
the result is the same for every oracle and every fuel, including fuel 0,
so no random draw and no loop iteration happens. -/
theorem claim_C4 (fuel len : Nat) (o : Nat → Nat)
    (h : len = 0 ∨ len % 2 = 1) :
    generate_key fuel o len = CRes.err (-14) ∧
    generate_n_p_q fuel o len = CRes.err (-22) := by
  have hn : generate_n_p_q fuel o len = CRes.err (-22) := by
    unfold generate_n_p_q
    rcases h with h | h
    · rw [if_pos h]
    · rw [if_neg (by omega), if_pos (by omega)]
  refine ⟨?_, hn⟩
  unfold generate_key
  rw [hn]

/-- C4 witness: bitLength 3 (odd), zero fuel, arbitrary oracle. -/
theorem claim_C4_witness :
    generate_key 0 (fun _ => 0) 3 = CRes.err (-14) ∧
    generate_n_p_q 0 (fun _ => 0) 3 = CRes.err (-22) :=
  claim_C4 0 3 (fun _ => 0) (by norm_num)

/-- Once `rsa_decrypt_file`'s loop faces a non-hexadecimal character,
every further iteration repeats the identical matching failure — the
character is never consumed and the EOF flag is never set — so the loop
never terminates, for any fuel, current value and accumulator. -/
theorem decrypt_stuck (e n : Nat) : ∀ fuel cur acc,
    rsa_decrypt_loop e n fuel cur ['z'] acc = none := by
  intro fuel
  induction fuel with
  | zero => intro cur acc; rfl
  | succ f ih =>
    intro cur acc
    have hs : scanHex ['z'] = (none, ['z'], false) := by decide
    simp only [rsa_decrypt_loop, hs, Option.getD_none]
    exact ih cur _

/-- C5: the code at the failing input.  Decrypting the well-formed stream
"1\n" terminates with exactly the decoded byte, but on "1\nz" — one valid
token followed by a malformed (non-hexadecimal) token — the loop never
terminates for ANY fuel: `gmp_fscanf` leaves the offending character
unread on a matching failure, `feof` never becomes true, and the loop
keeps re-emitting the transform of the stale `dencry` value instead of
ending the output after the first decoded byte. -/
theorem claim_C5_code_eval :
    rsa_decrypt_file 2 5 299 ['1', '\n'] = some [1] ∧
    ∀ fuel : Nat, rsa_decrypt_file fuel 5 299 ['1', '\n', 'z'] = none := by
  refine ⟨by decide, ?_⟩
  intro fuel
  cases fuel with
  | zero => rfl
  | succ f =>
    have hs1 : scanHex ['1', '\n', 'z'] = (some 1, ['\n', 'z'], false) := by
      decide
    simp only [rsa_decrypt_file, rsa_decrypt_loop, hs1, Option.getD_some]
    cases f with
    | zero => rfl
    | succ g =>
      have hs2 : scanHex ['\n', 'z'] = (none, ['z'], false) := by decide
      simp only [rsa_decrypt_loop, hs2, Option.getD_none]
      exact decrypt_stuck 5 299 g _ _

/-- C6: the code at the failing input.  For candidate 9 with 2 rounds and
an oracle always returning 0, the first trial draws its witness with
`__mpz_urandomm` bound t = candidate − 2 = 7, but the trial body
overwrites the temporary `t` with (candidate−1)/2 = 4, so the second
trial samples with bound 4 — the witness range is [2, 5], not the
claimed [2, 8] with bound candidate − 2. -/
theorem claim_C6_code_eval :
    primality_test_bounds 9 2 (fun _ => 0) = [7, 4] ∧
    7 = 9 - 2 ∧ (4 : Nat) ≠ 9 - 2 :=
  ⟨by decide, by decide, by decide⟩

/-- C7, confirmed: `primality_test` returns false for candidates below 2,
true for candidate 2, and false for every even candidate above 2,
independently of the rounds parameter and of the random oracle. -/
theorem claim_C7 (n k : Nat) (o : Nat → Nat) :
    (n < 2 → primality_test n k o = false) ∧
    (n = 2 → primality_test n k o = true) ∧
    (2 < n → n % 2 = 0 → primality_test n k o = false) := by
  refine ⟨?_, ?_, ?_⟩
  · intro h
    interval_cases n
    · rfl
    · rfl
  · intro h
    subst h
    rfl
  · intro h2 he
    unfold primality_test primality_testIdx
    rw [if_neg (by omega), if_neg (by omega), if_pos he]

/-- C7 witness: candidates 0, 2 and 10 with 3 rounds. -/
theorem claim_C7_witness :
    primality_test 0 3 (fun _ => 0) = false ∧
    primality_test 2 3 (fun _ => 0) = true ∧
    primality_test 10 3 (fun _ => 0) = false :=
  ⟨(claim_C7 0 3 (fun _ => 0)).1 (by norm_num),
   (claim_C7 2 3 (fun _ => 0)).2.1 rfl,
   (claim_C7 10 3 (fun _ => 0)).2.2 (by norm_num) (by norm_num)⟩

/-- C8: the code at the failing input.  For the odd prime candidate 3
the only possible witness is a = 2 (the urandomm bound is 1), whose
Jacobi symbol is −1 and whose Euler residue 2^((3−1)/2) mod 3 = 2 equals
the expected nonzero residue candidate − 1 = 2, so by the claim the test
must accept on the first trial; but the source stores
`(uint64_t)mpz_jacobi(a, n)`, turning −1 into 2^64 − 1, so the
comparison `a == x` can never succeed and `primality_test 3` returns
false (composite) for every number of rounds and every oracle shown. -/
theorem claim_C8_code_eval :
    jacobi 2 3 = -1 ∧
    2 ^ ((3 - 1) / 2) % 3 = 3 - 1 ∧
    ((jacobi 2 3) % (2 ^ 64 : Int)).toNat = 2 ^ 64 - 1 ∧
    primality_test 3 5 (fun _ => 0) = false ∧
    primality_test 3 5 (fun i => i) = false :=
  ⟨by decide, by decide, by decide, by decide, by decide⟩

/-- C9: the code at the failing input.  A non-null key whose modulus and
exponents are all 0 (unset) is accepted by both projections: the source
guard `!key || !key->n || !key->d` tests the ADDRESS of the embedded
`mpz_t` array members `n` and `d`, which is never null, so the unset
values are copied and no `-EINVAL` is raised, contrary to the claim. -/
theorem claim_C9_code_eval :
    generate_public_key (some ⟨0, 0, 0, 0, 0, 16⟩) =
      CRes.ok ⟨0, 0, 16⟩ ∧
    generate_private_key (some ⟨0, 0, 0, 0, 0, 16⟩) =
      CRes.ok ⟨0, 0, 16⟩ :=
  ⟨rfl, rfl⟩

/-- C10, confirmed: with rounds = 0 the trial loop body never runs, and
the only `return 1` sits inside it, so every odd candidate above 2 —
prime or not — is reported composite. -/
theorem claim_C10 (n : Nat) (o : Nat → Nat) (h2 : 2 < n)
    (hodd : n % 2 = 1) :
    primality_test n 0 o = false := by
  unfold primality_test primality_testIdx
  rw [if_neg (by omega), if_neg (by omega), if_neg (by omega)]
  rfl

/-- C10 witness: the prime 7 with 0 rounds. -/
theorem claim_C10_witness : primality_test 7 0 (fun _ => 0) = false :=
  claim_C10 7 (fun _ => 0) (by norm_num) (by norm_num)

end RSADemo
